import Mathlib

/-!
Verification of the probabilistic whisker-classification core (`hmm.py`).

The development embeds the emission-distribution estimator
(`EmmissionDistributions`), the two classifier constructions (`EDTwoState`,
`EDMultiState`) and the `LeftRightModel.transition_matrix` accessor as
executable Lean functions over exact rationals, and proves or refutes the
frozen specification claims about them.

Modelling conventions:
* numpy float arrays are modelled as lists of rationals (`List ℚ`); a data
  table is a list of rows `[class, fid, wid, feature0, feature1, ...]`.
* Python dictionaries keyed by state name are modelled as association lists
  (`dictGet` is `d[k]` returning `Option`); the state-name lists produced by
  the code never contain duplicates, so association-list and dict semantics
  coincide.
* the code stores `log2` of each bin probability and sums the stored logs
  in `evaluate`; the embedding stores the exact linear bin probabilities and
  applies an arbitrary transform `lg` (instantiated with `Real.logb 2` or,
  for executable witnesses, with the identity) at lookup time.  Applying the
  transform at lookup commutes with every dictionary/array indexing step, so
  the two presentations agree.
* fallible operations (dict lookup, array indexing) return `Option`;
  `none` corresponds to a raised `KeyError`/`IndexError`.
-/

/-- Ternary `zip`, mirroring Python's `zip(a, b, c)`: truncates to the
shortest of the three lists. -/
def zipWith3 {α β γ δ : Type} (f : α → β → γ → δ) : List α → List β → List γ → List δ
  | a :: as, b :: bs, c :: cs => f a b c :: zipWith3 f as bs cs
  | _, _, _ => []

/-- Python sequence indexing `xs[i]` with an integer index: a negative index
counts from the end (one wrap only); an index that is still out of bounds
raises `IndexError`, modelled as `none`. -/
def pyGet {α : Type} (xs : List α) (i : Int) : Option α :=
  if 0 ≤ i then xs.get? i.toNat
  else if 0 ≤ i + xs.length then xs.get? (i + xs.length).toNat
  else none

/-- Dictionary lookup `d[k]` on an association list; `none` models a raised
`KeyError`. -/
def dictGet {β : Type} (d : List (String × β)) (k : String) : Option β :=
  match d with
  | [] => none
  | (s, v) :: rest => if s = k then some v else dictGet rest k

/-- Python `d[name].append(h)` on an association list: the first entry named `name`
grows by `h`; on a missing name the code would raise `KeyError` (never
exercised: `estimate` is only called with the names installed by
`__init__`), modelled as a no-op. -/
def appendAt {α : Type} (d : List (String × List α)) (name : String) (h : α) :
    List (String × List α) :=
  match d with
  | [] => []
  | (s, v) :: rest =>
    if s = name then (s, v ++ [h]) :: rest else (s, v) :: appendAt rest name h

/-- Python `s.add(x)` on a set modelled as a duplicate-free list (insertion
order; the sizes and memberships proved below do not depend on the order a
Python set would enumerate). -/
def setAdd (l : List String) (x : String) : List String :=
  if x ∈ l then l else l ++ [x]

/-- Numpy `v.min()` of a vector (the code only applies it to nonempty
columns; the `[]` default is never exercised there). -/
def listMin : List ℚ → ℚ
  | [] => 0
  | x :: xs => xs.foldl min x

/-- Numpy `v.max()` of a vector. -/
def listMax : List ℚ → ℚ
  | [] => 0
  | x :: xs => xs.foldl max x

/-- Column `j` of a data table, `data[:, j]`. -/
def col (data : List (List ℚ)) (j : ℕ) : List ℚ :=
  data.map (fun r => r.getD j 0)

/-- Model of `numpy.linspace(mn, mx, num)`: `num` evenly spaced points from `mn` to
`mx` inclusive, point `k` being `mn + (mx - mn) * k / (num - 1)`. -/
def linspace (mn mx : ℚ) (num : ℕ) : List ℚ :=
  (List.range num).map (fun (k : ℕ) => mn + (mx - mn) * (k : ℚ) / ((num : ℚ) - 1))

/-- Membership of a value in the histogram bin `[lo, hi)` (`[lo, hi]` for the
last bin, as `numpy.histogram` closes it on the right). -/
def binPred (lo hi : ℚ) (last : Bool) (v : ℚ) : Bool :=
  decide (lo ≤ v ∧ (if last then v ≤ hi else v < hi))

/-- Model of `numpy.histogram(vals, bins = edges)` bin counts: bin `k` counts the
values in `[edges[k], edges[k+1])`, except that the last bin is closed on
the right.  Values outside `[edges[0], edges[last]]` are not counted. -/
def histEdges : List ℚ → List ℚ → List ℕ
  | lo :: hi :: rest, vals =>
    (vals.filter (binPred lo hi rest.isEmpty)).length :: histEdges (hi :: rest) vals
  | _, _ => []

/-- State of an `EmmissionDistributions` object: the state-name list, the
per-state histogram lists (`_distributions`, stored by the code as
`log2 probability`; stored here as the exact linear probabilities, see the
file comment), and the per-feature bin widths and minima
(`_feature_bin_deltas`, `_feature_bin_mins`). -/
structure EDB where
  states : List String
  dists : List (String × List (List ℚ))
  binDeltas : List ℚ
  binMins : List ℚ
deriving Repr, DecidableEq

/-- Embedding of `EmmissionDistributions.__init__`: empty histogram list per state, zeroed
bin vectors of length `nfeat` (`nfeat = 6` in the source, kept as a
parameter since the six feature functions are opaque collaborators). -/
def EDB.init (states : List String) (nfeat : ℕ) : EDB :=
  { states := states
    dists := states.map (fun s => (s, []))
    binDeltas := List.replicate nfeat 0
    binMins := List.replicate nfeat 0 }

/-- The normalized, Laplace-smoothed histogram stored for state index `si`
and feature `i`: `counts, _ = histogram(v[mask], bins = b)` with
`mask = data[:,0] == si` and `v = data[:, 3+i]`, then
`counts = counts + 1; counts /= counts.sum()`.  (The code then stores
`log2` of these values.) -/
def featProbs (data : List (List ℚ)) (si : ℕ) (i : ℕ) (b : List ℚ) : List ℚ :=
  let vals := (data.filter (fun r => decide (r.getD 0 0 = (si : ℚ)))).map
    (fun r => r.getD (3 + i) 0)
  let counts := histEdges b vals
  let total := (counts.map (fun (c : ℕ) => (c : ℚ) + 1)).sum
  counts.map (fun (c : ℕ) => ((c : ℚ) + 1) / total)

/-- Inner loop of `estimate`: `for i, state in enumerate(self._states):
self._distributions[state].append(...)`, with `si` the running enumeration
index. -/
def statesFoldAux (data : List (List ℚ)) (i : ℕ) (b : List ℚ) :
    ℕ → List String → List (String × List (List ℚ)) → List (String × List (List ℚ))
  | _, [], d => d
  | si, sn :: rest, d =>
    statesFoldAux data i b (si + 1) rest (appendAt d sn (featProbs data si i b))

/-- The bin-edge vector `b = linspace(v.min(), v.max(), 64)` computed by
`estimate` for feature `i` (from the whole column: no class filter). -/
def bEdges (data : List (List ℚ)) (i : ℕ) : List ℚ :=
  linspace (listMin (col data (3 + i))) (listMax (col data (3 + i))) 64

/-- One iteration of the outer `for i in xrange(nfeat)` loop of `estimate`:
record `b[1] - b[0]` and `b[0]` for feature `i`, then append one histogram
per state. -/
def estimateFeature (data : List (List ℚ)) (i : ℕ) (st : EDB) : EDB :=
  let b := bEdges data i
  { st with
    binDeltas := st.binDeltas.set i (b.getD 1 0 - b.getD 0 0)
    binMins := st.binMins.set i (b.getD 0 0)
    dists := statesFoldAux data i b 0 st.states st.dists }

/-- Embedding of `EmmissionDistributions.estimate` after the classification column has
been written: the outer loop over the `nfeat` features. -/
def estimateData (st : EDB) (nfeat : ℕ) (data : List (List ℚ)) : EDB :=
  (List.range nfeat).foldl (fun acc i => estimateFeature data i acc) st

/-- The classification pass of `estimate` on a supplied table:
`row[0] = self._classifier(wvd, traj, row[1], row[2])` for every row.  The
classifier closure already captures `wvd` and `traj`, so it is passed as a
function of the two float cells. -/
def relabel (classifier : ℚ → ℚ → Int) (data : List (List ℚ)) : List (List ℚ) :=
  data.map (fun r => r.set 0 ((classifier (r.getD 1 0) (r.getD 2 0) : Int) : ℚ))

/-- Embedding of `EmmissionDistributions.estimate` with a supplied data table: first the
classification pass, then the histogram loops. -/
def estimate (classifier : ℚ → ℚ → Int) (st : EDB) (nfeat : ℕ)
    (data : List (List ℚ)) : EDB :=
  estimateData st nfeat (relabel classifier data)

/-- Embedding of `EmmissionDistributions._discritize`: per coordinate
`floor((val - bmin) / db)`, zipped over the feature vector and the two
fitted bin vectors. -/
def discritize (fv deltas mins : List ℚ) : List Int :=
  zipWith3 (fun val db bmin => Int.floor ((val - bmin) / db)) fv deltas mins

/-- The list comprehension
`[self._distributions[state][i][j] for i, j in enumerate(idx)]` given the
histogram list `hists = self._distributions[state]`, with `i0` the running
enumeration index; any failing index lookup is a raised exception (`none`). -/
def lookupAll (hists : List (List ℚ)) (idx : List Int) (i0 : ℕ) : Option (List ℚ) :=
  match idx with
  | [] => some []
  | j :: rest =>
    (hists.get? i0).bind fun h =>
      (pyGet h j).bind fun p =>
        (lookupAll hists rest (i0 + 1)).map (fun l => p :: l)

/-- Embedding of `EmmissionDistributions.evaluate` on a precomputed feature vector,
returning the list of looked-up linear bin probabilities (the code looks up
their `log2`s; see the file comment). -/
def evaluateQ (st : EDB) (fv : List ℚ) (state : String) : Option (List ℚ) :=
  let idx := discritize fv st.binDeltas st.binMins
  (dictGet st.dists state).bind fun hists => lookupAll hists idx 0

/-- Embedding of `EmmissionDistributions.evaluate` on a precomputed feature vector:
`sum(logp)` where `logp` is the list of stored per-feature values.  `lg` is
the transform under which the probabilities are stored (`Real.logb 2` in
the code). -/
def evaluate {α : Type} [AddCommMonoid α] (lg : ℚ → α) (st : EDB) (fv : List ℚ)
    (state : String) : Option α :=
  (evaluateQ st fv state).map (fun l => (l.map lg).sum)

/-- Embedding of `EmmissionDistributions.feature`: apply each registered feature function
in order. -/
def feature {Seg : Type} (fns : List (Seg → ℚ)) (seg : Seg) : List ℚ :=
  fns.map (fun f => f seg)

/-- Embedding of `EmmissionDistributions.evaluate` on a segment: compute the feature
vector, then evaluate. -/
def evaluateSeg {Seg : Type} {α : Type} [AddCommMonoid α] (lg : ℚ → α)
    (fns : List (Seg → ℚ)) (st : EDB) (seg : Seg) (state : String) : Option α :=
  evaluate lg st (feature fns seg) state

/-- The claim-side description of what `evaluate` looks up for feature `i`
and value `v`: the stored bin probability for `(feature i, state)` at bin
index `floor((v - min_i) / binWidth_i)` (the code stores its `log2`). -/
def storedProb (st : EDB) (state : String) (i : ℕ) (v : ℚ) : ℚ :=
  (((dictGet st.dists state).getD []).getD i []).getD
    (Int.floor ((v - st.binMins.getD i 0) / st.binDeltas.getD i 0)).toNat 0

/-- The flattened label set `labelled = set(list(_itertraj(traj)))` of
`(fid, wid)` pairs; `traj` maps trajectory id to a map frame id → segment
id (association-list model). -/
def trajLabelled (traj : List (ℚ × List (ℚ × ℚ))) : List (ℚ × ℚ) :=
  traj.flatMap (fun p => p.2)

/-- The frame set built by `frames.update(v.keys()) for v in traj.values()`. -/
def trajFrames (traj : List (ℚ × List (ℚ × ℚ))) : List ℚ :=
  traj.flatMap (fun p => p.2.map Prod.fst)

/-- Embedding of `EDTwoState._make_classifer`, exactly as written: the returned closure
declares its parameters in the order `(wid, fid)`, although every call site
(`_all_features`, `train_time_independent`) passes the frame id third and
the segment id fourth.  Consequently, for a call
`classifier(wvd, traj, frameId, segId)` the body tests
`(frameId, segId) in labelled` (correct) but guards on `segId in frames`. -/
def twoStateClassifier (traj : List (ℚ × List (ℚ × ℚ))) : ℚ → ℚ → Int :=
  fun wid fid =>
    if fid ∈ trajFrames traj then (if (wid, fid) ∈ trajLabelled traj then 1 else 0)
    else -1

/-- Embedding of `EmmissionDistributions._all_features`: one row
`[classifier(wvd, traj, fid, wid), fid, wid, *feature(w)]` per whisker
segment, in dictionary iteration order (association-list order here). -/
def all_features {Seg : Type} (fns : List (Seg → ℚ)) (classifier : ℚ → ℚ → Int)
    (wvd : List (ℚ × List (ℚ × Seg))) : List (List ℚ) :=
  wvd.flatMap (fun fv =>
    fv.2.map (fun ww =>
      ((classifier fv.1 ww.1 : Int) : ℚ) :: fv.1 :: ww.1 :: feature fns ww.2))

/-- The name `"junk%d" % t`. -/
def junkName (t : ℕ) : String :=
  "junk" ++ toString t

/-- The name `"whisker%d" % t`. -/
def whiskerName (t : ℕ) : String :=
  "whisker" ++ toString t

/-- Stable insertion of one keyed segment, building the stable sort
`sorted(wv.items(), cmp = wrowcmp)` used by `EDMultiState._make_classifer`;
the key is `w.y[0]` (`wcmp`), so a segment is modelled by that single
rational key. -/
def insertSorted (x : ℚ × ℚ) : List (ℚ × ℚ) → List (ℚ × ℚ)
  | [] => [x]
  | y :: ys => if y.2 ≤ x.2 then y :: insertSorted x ys else x :: y :: ys

/-- Stable sort of a frame's `(wid, segment-key)` pairs by the `wcmp`
ordering on `y[0]`. -/
def wcmpSort (wv : List (ℚ × ℚ)) : List (ℚ × ℚ) :=
  wv.foldl (fun acc x => insertSorted x acc) []

/-- One segment step of `EDMultiState._make_classifer`'s per-frame loop: a
trajectory member gets the name `whisker%t` and increments `t`; any other
segment gets `junk%t` with the current `t`.  (The loop also records the
name in `classmap`, consumed only by the returned classifier closure, which
the claims under study do not touch.) -/
def stepSeg (labelled : List (ℚ × ℚ)) (fid : ℚ) (acc : List String × ℕ)
    (p : ℚ × ℚ) : List String × ℕ :=
  if (fid, p.1) ∈ labelled then (setAdd acc.1 (whiskerName acc.2), acc.2 + 1)
  else (setAdd acc.1 (junkName acc.2), acc.2)

/-- One frame of `EDMultiState._make_classifer`: reset `t = 0`, walk the
frame's segments in `wcmp` order, then `nsteps = max(nsteps, t)`. -/
def frameStep (labelled : List (ℚ × ℚ)) (acc : List String × ℕ)
    (frame : ℚ × List (ℚ × ℚ)) : List String × ℕ :=
  let r := (wcmpSort frame.2).foldl (stepSeg labelled frame.1) (acc.1, 0)
  (r.1, max acc.2 r.2)

/-- The state-name set and `_nsteps` discovered by
`EDMultiState._make_classifer` over the whole training set. -/
def discoverStates (traj : List (ℚ × List (ℚ × ℚ)))
    (wvd : List (ℚ × List (ℚ × ℚ))) : List String × ℕ :=
  wvd.foldl (frameStep (trajLabelled traj)) ([], 0)

/-- Embedding of `LeftRightModel.transition_matrix`: an `n × n` table over the model's
state list, each entry filled from `self._transitions[src][dst]` with a
`try/except KeyError: pass` that leaves the zero initialization in place
when either lookup fails. -/
def transition_matrix (states : List String)
    (trans : List (String × List (String × ℚ))) : List (List ℚ) :=
  states.map (fun src => states.map (fun dst =>
    match dictGet trans src with
    | none => 0
    | some inner =>
      match dictGet inner dst with
      | none => 0
      | some p => p))

/-- The bin width `b[1] - b[0]` that `estimate` stores for feature `i`. -/
def binWidth (data : List (List ℚ)) (i : ℕ) : ℚ :=
  (bEdges data i).getD 1 0 - (bEdges data i).getD 0 0

/-- The bin minimum `b[0]` that `estimate` stores for feature `i`. -/
def binMin0 (data : List (List ℚ)) (i : ℕ) : ℚ :=
  (bEdges data i).getD 0 0

/-- Edge `k` of the uniform binning the code derives from 64 `linspace`
points over `[mn, mx]`: there are 63 bins of width `(mx - mn) / 63`. -/
def binEdge (mn mx : ℚ) (k : ℕ) : ℚ :=
  mn + (mx - mn) * (k : ℚ) / 63

/-! ### Concrete example data used by counterexamples and witnesses -/

/-- The two-state name list `["junk", "whiskers"]`. -/
def exStates : List String :=
  ["junk", "whiskers"]

/-- A classifier assigning state 0 to every row. -/
def exCls0 : ℚ → ℚ → Int :=
  fun _ _ => 0

/-- A classifier marking frame 5 as having no ground truth. -/
def exCls3 : ℚ → ℚ → Int :=
  fun fid _ => if fid = 5 then -1 else 0

/-- Training table 1: one feature column with values `0` and `63`. -/
def exD1 : List (List ℚ) :=
  [[9, 0, 0, 0], [9, 0, 1, 63]]

/-- Training table 2: `exD1` plus a third segment with feature value `1/2`. -/
def exD2 : List (List ℚ) :=
  [[9, 0, 0, 0], [9, 0, 1, 63], [9, 0, 2, 1/2]]

/-- Training table for the out-of-range probe: values `0`, `63`, `63`. -/
def exD9 : List (List ℚ) :=
  [[9, 0, 0, 0], [9, 0, 1, 63], [9, 0, 2, 63]]

/-- Training table with an unlabeled (`-1`-classified) outlier row at
frame 5 whose feature value `-100` lies far below the labeled rows. -/
def exD3 : List (List ℚ) :=
  [[9, 0, 0, 0], [9, 0, 1, 1], [9, 5, 0, -100]]

/-- Estimator fitted once on `exD1`. -/
def exST1 : EDB :=
  estimate exCls0 (EDB.init exStates 1) 1 exD1

/-- Fresh estimator fitted once on `exD2`. -/
def exST2 : EDB :=
  estimate exCls0 (EDB.init exStates 1) 1 exD2

/-- Estimator fitted on `exD1` and then re-fitted on `exD2` (the retraining
scenario of the append-semantics claim). -/
def exSTBoth : EDB :=
  estimate exCls0 exST1 1 exD2

/-- Estimator fitted once on `exD9`.  Its junk histogram has first entry
`1/33` (bin 0) and last entry `1/22` (bin 62). -/
def exST9 : EDB :=
  estimate exCls0 (EDB.init exStates 1) 1 exD9

/-- Estimator fitted on `exD3` with the `-1`-aware classifier `exCls3`. -/
def exST3 : EDB :=
  estimate exCls3 (EDB.init exStates 1) 1 exD3

/-- One-trajectory label collection: trajectory 0 contains segment 20 of
frame 10. -/
def exTraj5 : List (ℚ × List (ℚ × ℚ)) :=
  [(0, [(10, 20)])]

/-- A training set with a single frame holding a single unlabeled segment. -/
def exWvd7 : List (ℚ × List (ℚ × ℚ)) :=
  [(0, [(0, 0)])]

/-! ### Generic list lemmas -/

theorem zipWith3_length {α β γ δ : Type} (f : α → β → γ → δ) :
    ∀ (as : List α) (bs : List β) (cs : List γ),
      (zipWith3 f as bs cs).length = min as.length (min bs.length cs.length)
  | [], _, _ => by cases ‹List β› <;> cases ‹List γ› <;> simp [zipWith3]
  | _ :: _, [], _ => by simp [zipWith3]
  | _ :: _, _ :: _, [] => by simp [zipWith3]
  | a :: as, b :: bs, c :: cs => by
    simp [zipWith3, zipWith3_length f as bs cs, Nat.succ_min_succ]

theorem zipWith3_getD {α β γ δ : Type} (f : α → β → γ → δ) (da : α) (db : β)
    (dc : γ) (dd : δ) :
    ∀ (as : List α) (bs : List β) (cs : List γ) (k : ℕ),
      k < (zipWith3 f as bs cs).length →
      (zipWith3 f as bs cs).getD k dd = f (as.getD k da) (bs.getD k db) (cs.getD k dc)
  | a :: as, b :: bs, c :: cs, 0, _ => rfl
  | a :: as, b :: bs, c :: cs, k + 1, h => by
    simpa [zipWith3] using
      zipWith3_getD f da db dc dd as bs cs k (by simpa [zipWith3] using h)
  | [], _, _, k, h => by simp [zipWith3] at h
  | _ :: _, [], _, k, h => by simp [zipWith3] at h
  | _ :: _, _ :: _, [], k, h => by simp [zipWith3] at h

theorem get?_eq_some_getD {α : Type} (l : List α) (i : ℕ) (d : α)
    (h : i < l.length) : l.get? i = some (l.getD i d) := by
  rw [List.get?_eq_getElem?, List.getD_eq_getElem?_getD,
    List.getElem?_eq_getElem h]
  rfl

theorem pyGet_in_range {α : Type} (xs : List α) (i : Int) (d : α)
    (h0 : 0 ≤ i) (h1 : i.toNat < xs.length) :
    pyGet xs i = some (xs.getD i.toNat d) := by
  rw [pyGet, if_pos h0]
  exact get?_eq_some_getD xs i.toNat d h1

theorem histEdges_length (vals : List ℚ) :
    ∀ edges : List ℚ, (histEdges edges vals).length = edges.length - 1
  | [] => rfl
  | [_] => rfl
  | _ :: hi :: rest => by
    simp [histEdges, histEdges_length vals (hi :: rest)]

theorem linspace_length (mn mx : ℚ) (num : ℕ) : (linspace mn mx num).length = num := by
  rw [linspace, List.length_map, List.length_range]

theorem linspace_getD (mn mx : ℚ) (num k : ℕ) (h : k < num) :
    (linspace mn mx num).getD k 0 = mn + (mx - mn) * (k : ℚ) / ((num : ℚ) - 1) := by
  rw [List.getD_eq_getElem?_getD, linspace, List.getElem?_map,
    List.getElem?_range h]
  rfl

theorem histEdges_getD (vals : List ℚ) :
    ∀ (edges : List ℚ) (k : ℕ), k + 1 < edges.length →
      (histEdges edges vals).getD k 0 =
        (vals.filter (binPred (edges.getD k 0) (edges.getD (k + 1) 0)
          (decide (k + 2 = edges.length)))).length
  | lo :: hi :: rest, 0, _ => by
    have hb : decide (0 + 2 = (lo :: hi :: rest).length) = rest.isEmpty := by
      cases rest <;> simp [List.length_cons]
    simp only [histEdges, List.getD_cons_zero, List.getD_cons_succ, hb]
  | lo :: hi :: rest, k + 1, h => by
    have h2 : k + 1 < (hi :: rest).length := by
      simpa [List.length_cons] using Nat.lt_of_succ_lt_succ h
    have hb : decide (k + 1 + 2 = (lo :: hi :: rest).length) =
        decide (k + 2 = (hi :: rest).length) := by
      rw [decide_eq_decide]
      simp [List.length_cons]
    simp only [histEdges, List.getD_cons_succ, hb]
    exact histEdges_getD vals (hi :: rest) k h2

theorem dictGet_appendAt {α : Type} (name s : String) (h : α) :
    ∀ d : List (String × List α),
      dictGet (appendAt d name h) s =
        if s = name then (dictGet d s).map (fun v => v ++ [h]) else dictGet d s
  | [] => by
    by_cases hs : s = name <;> simp [appendAt, dictGet, hs]
  | (s0, v) :: tl => by
    have ih := dictGet_appendAt name s h tl
    by_cases h0 : s0 = name <;> by_cases h1 : s0 = s <;> by_cases hs : s = name <;>
      simp_all [appendAt, dictGet]

theorem statesFoldAux_not_mem (data : List (List ℚ)) (i : ℕ) (b : List ℚ)
    (s : String) :
    ∀ (sts : List String) (k : ℕ) (d : List (String × List (List ℚ))),
      s ∉ sts → dictGet (statesFoldAux data i b k sts d) s = dictGet d s
  | [], _, _, _ => rfl
  | sn :: rest, k, d, hmem => by
    have hns : s ≠ sn := fun hc => hmem (hc ▸ List.mem_cons_self sn rest)
    have hrest : s ∉ rest := fun hc => hmem (List.mem_cons_of_mem sn hc)
    rw [statesFoldAux, statesFoldAux_not_mem data i b s rest (k + 1) _ hrest,
      dictGet_appendAt, if_neg hns]

theorem statesFoldAux_get (data : List (List ℚ)) (i : ℕ) (b : List ℚ)
    (s : String) :
    ∀ (sts : List String) (si k : ℕ) (d : List (String × List (List ℚ))),
      sts.Nodup → sts.get? si = some s →
      dictGet (statesFoldAux data i b k sts d) s =
        (dictGet d s).map (fun v => v ++ [featProbs data (k + si) i b])
  | [], si, _, _, _, hget => by simp at hget
  | sn :: rest, 0, k, d, hnd, hget => by
    have hs : sn = s := by simpa using hget
    have hrest : s ∉ rest := hs ▸ (List.nodup_cons.mp hnd).1
    rw [statesFoldAux, statesFoldAux_not_mem data i b s rest (k + 1) _ hrest,
      hs, dictGet_appendAt, if_pos rfl, Nat.add_zero]
  | sn :: rest, si + 1, k, d, hnd, hget => by
    have hget2 : rest.get? si = some s := by simpa using hget
    have hmem : s ∈ rest := by
      rcases List.get?_eq_some.mp hget2 with ⟨hlt, hv⟩
      exact hv ▸ List.get_mem rest si hlt
    have hns : s ≠ sn := by
      intro hc
      exact (List.nodup_cons.mp hnd).1 (hc ▸ hmem)
    rw [statesFoldAux,
      statesFoldAux_get data i b s rest si (k + 1) _ (List.nodup_cons.mp hnd).2 hget2,
      dictGet_appendAt, if_neg hns]
    have : k + 1 + si = k + (si + 1) := by omega
    rw [this]

/-! ### Structure of the fitted estimator -/

theorem estimateData_zero (st : EDB) (data : List (List ℚ)) :
    estimateData st 0 data = st :=
  rfl

theorem estimateData_succ (st : EDB) (data : List (List ℚ)) (n : ℕ) :
    estimateData st (n + 1) data = estimateFeature data n (estimateData st n data) := by
  rw [estimateData, estimateData, List.range_succ, List.foldl_append]
  rfl

theorem estimateFeature_states (data : List (List ℚ)) (i : ℕ) (st : EDB) :
    (estimateFeature data i st).states = st.states :=
  rfl

theorem estimateData_states (st : EDB) (data : List (List ℚ)) :
    ∀ nfeat : ℕ, (estimateData st nfeat data).states = st.states
  | 0 => rfl
  | n + 1 => by
    rw [estimateData_succ, estimateFeature_states, estimateData_states st data n]

theorem estimateFeature_binDeltas (data : List (List ℚ)) (i : ℕ) (st : EDB) :
    (estimateFeature data i st).binDeltas = st.binDeltas.set i (binWidth data i) :=
  rfl

theorem estimateFeature_binMins (data : List (List ℚ)) (i : ℕ) (st : EDB) :
    (estimateFeature data i st).binMins = st.binMins.set i (binMin0 data i) :=
  rfl

theorem estimateData_binDeltas_length (st : EDB) (data : List (List ℚ)) :
    ∀ nfeat : ℕ, (estimateData st nfeat data).binDeltas.length = st.binDeltas.length
  | 0 => rfl
  | n + 1 => by
    rw [estimateData_succ, estimateFeature_binDeltas, List.length_set,
      estimateData_binDeltas_length st data n]

theorem estimateData_binMins_length (st : EDB) (data : List (List ℚ)) :
    ∀ nfeat : ℕ, (estimateData st nfeat data).binMins.length = st.binMins.length
  | 0 => rfl
  | n + 1 => by
    rw [estimateData_succ, estimateFeature_binMins, List.length_set,
      estimateData_binMins_length st data n]

theorem estimateData_binDeltas_getD (st : EDB) (data : List (List ℚ)) :
    ∀ nfeat i : ℕ, i < nfeat → i < st.binDeltas.length →
      (estimateData st nfeat data).binDeltas.getD i 0 = binWidth data i
  | 0, i, hi, _ => absurd hi (Nat.not_lt_zero i)
  | n + 1, i, hi, hlen => by
    rw [estimateData_succ, estimateFeature_binDeltas]
    rcases Nat.lt_or_ge i n with hin | hin
    · rw [List.getD_eq_getElem?_getD, List.getElem?_set_ne (fun hc => by omega),
        ← List.getD_eq_getElem?_getD]
      exact estimateData_binDeltas_getD st data n i hin hlen
    · have hieq : i = n := by omega
      subst hieq
      rw [List.getD_eq_getElem?_getD, List.getElem?_set_self
        (by rw [estimateData_binDeltas_length st data i]; exact hlen)]
      rfl

theorem estimateData_binMins_getD (st : EDB) (data : List (List ℚ)) :
    ∀ nfeat i : ℕ, i < nfeat → i < st.binMins.length →
      (estimateData st nfeat data).binMins.getD i 0 = binMin0 data i
  | 0, i, hi, _ => absurd hi (Nat.not_lt_zero i)
  | n + 1, i, hi, hlen => by
    rw [estimateData_succ, estimateFeature_binMins]
    rcases Nat.lt_or_ge i n with hin | hin
    · rw [List.getD_eq_getElem?_getD, List.getElem?_set_ne (fun hc => by omega),
        ← List.getD_eq_getElem?_getD]
      exact estimateData_binMins_getD st data n i hin hlen
    · have hieq : i = n := by omega
      subst hieq
      rw [List.getD_eq_getElem?_getD, List.getElem?_set_self
        (by rw [estimateData_binMins_length st data i]; exact hlen)]
      rfl

theorem estimateFeature_dists (data : List (List ℚ)) (i : ℕ) (st : EDB)
    (s : String) (si : ℕ) (hnd : st.states.Nodup)
    (hget : st.states.get? si = some s) :
    dictGet (estimateFeature data i st).dists s =
      (dictGet st.dists s).map (fun v => v ++ [featProbs data si i (bEdges data i)]) := by
  have h := statesFoldAux_get data i (bEdges data i) s st.states si 0 st.dists hnd hget
  rw [Nat.zero_add] at h
  rw [estimateFeature]
  exact h

theorem estimateData_dists (st : EDB) (data : List (List ℚ)) (s : String)
    (si : ℕ) (hnd : st.states.Nodup) (hget : st.states.get? si = some s) :
    ∀ nfeat : ℕ,
      dictGet (estimateData st nfeat data).dists s =
        (dictGet st.dists s).map
          (fun v => v ++ (List.range nfeat).map (fun i => featProbs data si i (bEdges data i)))
  | 0 => by
    cases h : dictGet st.dists s <;> simp [estimateData_zero, h]
  | n + 1 => by
    have hnd2 : (estimateData st n data).states.Nodup := by
      rw [estimateData_states]; exact hnd
    have hget2 : (estimateData st n data).states.get? si = some s := by
      rw [estimateData_states]; exact hget
    rw [estimateData_succ, estimateFeature_dists data n _ s si hnd2 hget2,
      estimateData_dists st data s si hnd hget n, Option.map_map, List.range_succ]
    cases h : dictGet st.dists s <;> simp [Function.comp]

/-! ### The stored histograms are Laplace-smoothed probability vectors -/

theorem featProbs_length (data : List (List ℚ)) (si i : ℕ) (b : List ℚ) :
    (featProbs data si i b).length = b.length - 1 := by
  rw [featProbs]
  simp [histEdges_length]

theorem smoothed_total_pos (counts : List ℕ) (hne : counts ≠ []) :
    0 < (counts.map (fun (c : ℕ) => (c : ℚ) + 1)).sum := by
  apply List.sum_pos
  · intro x hx
    rcases List.mem_map.mp hx with ⟨c, _, hc⟩
    have hnn : (0 : ℚ) ≤ (c : ℚ) := Nat.cast_nonneg c
    linarith
  · intro hc
    exact hne (by simpa using hc)

theorem featProbs_mem_pos (data : List (List ℚ)) (si i : ℕ) (b : List ℚ)
    (hb : b.length = 64) (p : ℚ) (hp : p ∈ featProbs data si i b) : 0 < p := by
  rw [featProbs] at hp
  simp only [List.mem_map] at hp
  rcases hp with ⟨c, hc, hcp⟩
  have hne : histEdges b ((data.filter (fun r => decide (r.getD 0 0 = (si : ℚ)))).map
      (fun r => r.getD (3 + i) 0)) ≠ [] := by
    intro hcon
    have := histEdges_length ((data.filter (fun r => decide (r.getD 0 0 = (si : ℚ)))).map
      (fun r => r.getD (3 + i) 0)) b
    rw [hcon, hb] at this
    simp at this
  have htot := smoothed_total_pos _ hne
  rw [← hcp]
  apply div_pos _ htot
  have hnn : (0 : ℚ) ≤ (c : ℚ) := Nat.cast_nonneg c
  linarith

theorem featProbs_sum (data : List (List ℚ)) (si i : ℕ) (b : List ℚ)
    (hb : b.length = 64) : (featProbs data si i b).sum = 1 := by
  rw [featProbs]
  have hne : histEdges b ((data.filter (fun r => decide (r.getD 0 0 = (si : ℚ)))).map
      (fun r => r.getD (3 + i) 0)) ≠ [] := by
    intro hcon
    have := histEdges_length ((data.filter (fun r => decide (r.getD 0 0 = (si : ℚ)))).map
      (fun r => r.getD (3 + i) 0)) b
    rw [hcon, hb] at this
    simp at this
  have htot := smoothed_total_pos _ hne
  simp only [div_eq_mul_inv, List.sum_map_mul_right]
  exact mul_inv_cancel₀ (ne_of_gt htot)

theorem dictGet_init {β : Type} (z : β) :
    ∀ (states : List String) (s : String), s ∈ states →
      dictGet (states.map (fun t => (t, z))) s = some z
  | [], s, hmem => absurd hmem (List.not_mem_nil s)
  | s0 :: rest, s, hmem => by
    by_cases h0 : s0 = s
    · simp [dictGet, h0]
    · have : s ∈ rest := by
        rcases List.mem_cons.mp hmem with hc | hc
        · exact absurd hc.symm h0
        · exact hc
      simp only [List.map_cons, dictGet, if_neg h0]
      exact dictGet_init z rest s this

/-! ### Evaluation as a sum of binned log-probabilities -/

theorem discritize_length (fv deltas mins : List ℚ) :
    (discritize fv deltas mins).length =
      min fv.length (min deltas.length mins.length) :=
  zipWith3_length _ fv deltas mins

theorem discritize_getD (fv deltas mins : List ℚ) (k : ℕ)
    (h : k < (discritize fv deltas mins).length) :
    (discritize fv deltas mins).getD k 0 =
      Int.floor ((fv.getD k 0 - mins.getD k 0) / deltas.getD k 0) :=
  zipWith3_getD _ 0 0 0 0 fv deltas mins k h

theorem lookupAll_spec (hists : List (List ℚ)) :
    ∀ (idx : List Int) (i0 : ℕ),
      (∀ k, k < idx.length → i0 + k < hists.length ∧ 0 ≤ idx.getD k 0 ∧
        (idx.getD k 0).toNat < (hists.getD (i0 + k) []).length) →
      lookupAll hists idx i0 =
        some ((List.range idx.length).map
          (fun k => (hists.getD (i0 + k) []).getD (idx.getD k 0).toNat 0))
  | [], i0, _ => by simp [lookupAll]
  | j :: rest, i0, h => by
    have h0 := h 0 (by simp)
    rw [Nat.add_zero, List.getD_cons_zero] at h0
    have hget : hists.get? i0 = some (hists.getD i0 []) :=
      get?_eq_some_getD hists i0 [] h0.1
    have hpy : pyGet (hists.getD i0 []) j =
        some ((hists.getD i0 []).getD j.toNat 0) :=
      pyGet_in_range (hists.getD i0 []) j 0 h0.2.1 h0.2.2
    have hrec : ∀ k, k < rest.length → (i0 + 1) + k < hists.length ∧
        0 ≤ rest.getD k 0 ∧
        (rest.getD k 0).toNat < (hists.getD ((i0 + 1) + k) []).length := by
      intro k hk
      have hh := h (k + 1) (by simpa using Nat.succ_lt_succ hk)
      rw [List.getD_cons_succ] at hh
      have he : i0 + (k + 1) = (i0 + 1) + k := by omega
      rw [he] at hh
      exact hh
    rw [lookupAll, hget]
    simp only [Option.some_bind]
    rw [hpy]
    simp only [Option.some_bind]
    rw [lookupAll_spec hists rest (i0 + 1) hrec]
    simp only [Option.map_some']
    congr 1
    rw [List.length_cons, List.range_succ_eq_map]
    simp only [List.map_cons, List.map_map, Nat.add_zero, List.getD_cons_zero]
    congr 1
    apply List.map_congr_left
    intro k hk
    simp only [Function.comp_apply, List.getD_cons_succ]
    have he : i0 + (k + 1) = (i0 + 1) + k := by omega
    rw [he]

/-- C1: for a fitted estimator, `evaluate(segment, state)` returns the sum
over all registered features of the stored log2 bin probability for that
(feature, state) histogram at bin index `floor((value - min) / binWidth)`,
where `value` is the segment's feature value and min/binWidth are the
fitted per-feature bin minimum and width.  `lg` is the transform under
which the code stores the bin probabilities (`Real.logb 2`); the statement
holds for every such transform.  The hypotheses say the estimator is
fitted for the segment's feature count and every computed bin index lands
inside its histogram (the out-of-range behavior is settled separately). -/
theorem C1_evaluate_sums_binned_logprobs {Seg α : Type} [AddCommMonoid α]
    (lg : ℚ → α) (fns : List (Seg → ℚ)) (st : EDB) (seg : Seg) (state : String)
    (hists : List (List ℚ))
    (hdict : dictGet st.dists state = some hists)
    (hd : st.binDeltas.length = fns.length)
    (hm : st.binMins.length = fns.length)
    (hh : fns.length ≤ hists.length)
    (hin : ∀ i, i < fns.length →
      0 ≤ Int.floor (((feature fns seg).getD i 0 - st.binMins.getD i 0) /
            st.binDeltas.getD i 0) ∧
      (Int.floor (((feature fns seg).getD i 0 - st.binMins.getD i 0) /
            st.binDeltas.getD i 0)).toNat < (hists.getD i []).length) :
    evaluateSeg lg fns st seg state =
      some (((List.range fns.length).map
        (fun i => lg (storedProb st state i ((feature fns seg).getD i 0)))).sum) := by
  have hfv : (feature fns seg).length = fns.length := List.length_map fns _
  have hlen : (discritize (feature fns seg) st.binDeltas st.binMins).length =
      fns.length := by
    rw [discritize_length, hfv, hd, hm]
    omega
  have hidx : ∀ k, k < fns.length →
      (discritize (feature fns seg) st.binDeltas st.binMins).getD k 0 =
        Int.floor (((feature fns seg).getD k 0 - st.binMins.getD k 0) /
          st.binDeltas.getD k 0) := by
    intro k hk
    exact discritize_getD _ _ _ k (by rw [hlen]; exact hk)
  have hspec := lookupAll_spec hists
    (discritize (feature fns seg) st.binDeltas st.binMins) 0 (by
      intro k hk
      rw [hlen] at hk
      rw [Nat.zero_add, hidx k hk]
      exact ⟨lt_of_lt_of_le hk hh, (hin k hk).1, (hin k hk).2⟩)
  rw [evaluateSeg, evaluate, evaluateQ, hdict]
  simp only [Option.some_bind]
  rw [hspec]
  simp only [Option.map_some']
  congr 1
  rw [List.map_map, hlen]
  apply congrArg List.sum
  apply List.map_congr_left
  intro k hk
  have hk2 : k < fns.length := List.mem_range.mp hk
  simp only [Function.comp_apply, Nat.zero_add, hidx k hk2]
  rw [storedProb, hdict]
  rfl

/-! ### The fitted bin geometry -/

theorem relabel_col (cls : ℚ → ℚ → Int) (data : List (List ℚ)) (j : ℕ)
    (hj : j ≠ 0) : col (relabel cls data) j = col data j := by
  rw [col, relabel, List.map_map]
  apply List.map_congr_left
  intro r hr
  simp only [Function.comp_apply]
  rw [List.getD_eq_getElem?_getD, List.getElem?_set_ne (fun hc => hj hc.symm),
    ← List.getD_eq_getElem?_getD]

theorem bEdges_length (data : List (List ℚ)) (i : ℕ) :
    (bEdges data i).length = 64 := by
  rw [bEdges, linspace_length]

theorem binWidth_eq (data : List (List ℚ)) (i : ℕ) :
    binWidth data i =
      (listMax (col data (3 + i)) - listMin (col data (3 + i))) / 63 := by
  rw [binWidth, bEdges, linspace_getD _ _ 64 1 (by norm_num),
    linspace_getD _ _ 64 0 (by norm_num)]
  norm_num

theorem binMin0_eq (data : List (List ℚ)) (i : ℕ) :
    binMin0 data i = listMin (col data (3 + i)) := by
  rw [binMin0, bEdges, linspace_getD _ _ 64 0 (by norm_num)]
  norm_num

theorem bEdges_getD (data : List (List ℚ)) (i k : ℕ) (hk : k < 64) :
    (bEdges data i).getD k 0 =
      binEdge (listMin (col data (3 + i))) (listMax (col data (3 + i))) k := by
  rw [bEdges, linspace_getD _ _ 64 k hk, binEdge]
  norm_num

theorem estimate_dists (cls : ℚ → ℚ → Int) (states : List String) (nfeat : ℕ)
    (data : List (List ℚ)) (s : String) (si : ℕ) (hnd : states.Nodup)
    (hget : states.get? si = some s) :
    dictGet (estimate cls (EDB.init states nfeat) nfeat data).dists s =
      some ((List.range nfeat).map
        (fun i => featProbs (relabel cls data) si i (bEdges (relabel cls data) i))) := by
  have hmem : s ∈ states := by
    rcases List.get?_eq_some.mp hget with ⟨hlt, hv⟩
    exact hv ▸ List.get_mem states si hlt
  rw [estimate, estimateData_dists (EDB.init states nfeat) (relabel cls data) s si
    hnd hget nfeat]
  have hinit : dictGet (EDB.init states nfeat).dists s = some [] :=
    dictGet_init ([] : List (List ℚ)) states s hmem
  rw [hinit]
  simp

/-- C2 counterexample: fitting on exD1 (feature range `[0, 63]`) stores bin
width `1 = (63 - 0) / 63`, not `(max - min) / 64 = 63/64` as the claim
states, and the stored histogram has 63 bins, not 64 (`linspace(mn, mx, 64)`
produces 64 bin *edges*). -/
theorem C2_counterexample :
    exST1.binDeltas.getD 0 0 ≠
      (listMax (col exD1 3) - listMin (col exD1 3)) / 64 ∧
    (((dictGet exST1.dists "junk").getD []).getD 0 []).length ≠ 64 := by
  with_unfolding_all decide

/-- C2 as amended: for every feature, `estimate` derives 64 uniform bin
edges over the unfiltered global min/max, hence 63 bins: the stored bin
width is `(max - min) / 63`, the stored bin minimum is `min`, every stored
histogram has 63 entries, bin `k` counts the values in
`[min + k·w, min + (k+1)·w)` — the last bin (`k = 62`) being closed on the
right — and edge `k` equals `min + k·w` for the stored width `w`. -/
theorem C2_amended_63_bins (cls : ℚ → ℚ → Int) (states : List String)
    (nfeat : ℕ) (data : List (List ℚ)) (i : ℕ) (s : String) (si : ℕ)
    (hi : i < nfeat) (hnd : states.Nodup) (hget : states.get? si = some s) :
    (estimate cls (EDB.init states nfeat) nfeat data).binDeltas.getD i 0 =
      (listMax (col data (3 + i)) - listMin (col data (3 + i))) / 63 ∧
    (estimate cls (EDB.init states nfeat) nfeat data).binMins.getD i 0 =
      listMin (col data (3 + i)) ∧
    (∀ hist ∈ (dictGet (estimate cls (EDB.init states nfeat) nfeat data).dists s).getD [],
      hist.length = 63) ∧
    (∀ k : ℕ, k + 1 < 64 → ∀ vals : List ℚ,
      (histEdges (bEdges (relabel cls data) i) vals).getD k 0 =
        (vals.filter (binPred
          (binEdge (listMin (col data (3 + i))) (listMax (col data (3 + i))) k)
          (binEdge (listMin (col data (3 + i))) (listMax (col data (3 + i))) (k + 1))
          (decide (k = 62)))).length) ∧
    (∀ k : ℕ, binEdge (listMin (col data (3 + i))) (listMax (col data (3 + i))) k =
      listMin (col data (3 + i)) + (k : ℚ) *
        ((estimate cls (EDB.init states nfeat) nfeat data).binDeltas.getD i 0)) := by
  have hlen : i < (EDB.init states nfeat).binDeltas.length := by
    simp [EDB.init]
    omega
  have hlen2 : i < (EDB.init states nfeat).binMins.length := by
    simp [EDB.init]
    omega
  have hwidth : (estimate cls (EDB.init states nfeat) nfeat data).binDeltas.getD i 0 =
      (listMax (col data (3 + i)) - listMin (col data (3 + i))) / 63 := by
    rw [estimate, estimateData_binDeltas_getD _ _ nfeat i hi hlen, binWidth_eq,
      relabel_col cls data (3 + i) (by omega)]
  refine ⟨hwidth, ?_, ?_, ?_, ?_⟩
  · rw [estimate, estimateData_binMins_getD _ _ nfeat i hi hlen2, binMin0_eq,
      relabel_col cls data (3 + i) (by omega)]
  · intro hist hmem
    rw [estimate_dists cls states nfeat data s si hnd hget] at hmem
    simp only [Option.getD_some, List.mem_map] at hmem
    rcases hmem with ⟨j, _, rfl⟩
    rw [featProbs_length, bEdges_length]
  · intro k hk vals
    have h64 : k + 1 < (bEdges (relabel cls data) i).length := by
      rw [bEdges_length]
      exact hk
    rw [histEdges_getD vals (bEdges (relabel cls data) i) k h64,
      bEdges_getD _ _ k (by omega), bEdges_getD _ _ (k + 1) (by omega),
      relabel_col cls data (3 + i) (by omega), bEdges_length]
    have hdec : decide (k + 2 = 64) = decide (k = 62) := by
      rw [decide_eq_decide]
      omega
    rw [hdec]
  · intro k
    rw [hwidth, binEdge]
    ring

/-- C2 amended, witnessed on exD1: the stored width is `(63 - 0) / 63`. -/
theorem C2_amended_witness :
    exST1.binDeltas.getD 0 0 =
      (listMax (col exD1 3) - listMin (col exD1 3)) / 63 :=
  (C2_amended_63_bins exCls0 exStates 1 exD1 0 "junk" 0 (by decide) (by decide)
    (by with_unfolding_all decide)).1

/-- C3 counterexample: on exD3 the row classified `-1` (frame 5, feature
value `-100`) is *not* excluded from the extrema: the stored bin minimum is
`-100`, not the minimum `0` of the `-1`-filtered rows the claim
prescribes. -/
theorem C3_counterexample :
    exST3.binMins.getD 0 0 ≠
      listMin (((relabel exCls3 exD3).filter
        (fun r => decide (¬ r.getD 0 0 = (-1 : ℚ)))).map (fun r => r.getD 3 0)) ∧
    exST3.binMins.getD 0 0 = -100 := by
  with_unfolding_all decide

/-- C3 as amended: `estimate` computes each feature's extrema over the
*whole* classified column — rows whose classifier output is the sentinel
`-1` included — and only the per-state histogram counts filter rows (by
class equality). -/
theorem C3_amended_unfiltered_extrema (cls : ℚ → ℚ → Int) (states : List String)
    (nfeat : ℕ) (data : List (List ℚ)) (i : ℕ) (hi : i < nfeat) :
    (estimate cls (EDB.init states nfeat) nfeat data).binMins.getD i 0 =
      listMin (col data (3 + i)) ∧
    (estimate cls (EDB.init states nfeat) nfeat data).binDeltas.getD i 0 =
      (listMax (col data (3 + i)) - listMin (col data (3 + i))) / 63 := by
  have hlen : i < (EDB.init states nfeat).binDeltas.length := by
    simp [EDB.init]
    omega
  have hlen2 : i < (EDB.init states nfeat).binMins.length := by
    simp [EDB.init]
    omega
  constructor
  · rw [estimate, estimateData_binMins_getD _ _ nfeat i hi hlen2, binMin0_eq,
      relabel_col cls data (3 + i) (by omega)]
  · rw [estimate, estimateData_binDeltas_getD _ _ nfeat i hi hlen, binWidth_eq,
      relabel_col cls data (3 + i) (by omega)]

/-- C3 amended, witnessed on exD3: the stored minimum is the unfiltered
column minimum `-100`. -/
theorem C3_amended_witness :
    exST3.binMins.getD 0 0 = listMin (col exD3 3) :=
  (C3_amended_unfiltered_extrema exCls3 exStates 1 exD3 0 (by decide)).1

/-- C4: after `estimate`, every stored per-(feature, state) histogram is a
probability vector in linear space: all bin probabilities are strictly
positive and they sum to exactly 1 (so the stored log2 values are finite
and their linear counterparts sum to 1). -/
theorem C4_histograms_positive_sum_one (cls : ℚ → ℚ → Int)
    (states : List String) (nfeat : ℕ) (data : List (List ℚ)) (s : String)
    (si : ℕ) (hist : List ℚ) (hnd : states.Nodup)
    (hget : states.get? si = some s)
    (hmem : hist ∈
      (dictGet (estimate cls (EDB.init states nfeat) nfeat data).dists s).getD []) :
    (∀ p ∈ hist, 0 < p) ∧ hist.sum = 1 := by
  rw [estimate_dists cls states nfeat data s si hnd hget] at hmem
  simp only [Option.getD_some, List.mem_map] at hmem
  rcases hmem with ⟨j, _, rfl⟩
  constructor
  · intro p hp
    exact featProbs_mem_pos _ si j _ (bEdges_length _ j) p hp
  · exact featProbs_sum _ si j _ (bEdges_length _ j)

set_option maxRecDepth 8000 in
/-- C4, witnessed on exD1: the junk histogram sums to 1. -/
theorem C4_witness :
    (((dictGet exST1.dists "junk").getD []).getD 0 []).sum = 1 :=
  (C4_histograms_positive_sum_one exCls0 exStates 1 exD1 "junk" 0
    (((dictGet exST1.dists "junk").getD []).getD 0 []) (by decide)
    (by with_unfolding_all decide) (by with_unfolding_all decide)).2

set_option maxRecDepth 8000 in
/-- C1, witnessed on the estimator fitted to exD1, with the identity
transform and a single identity feature function: evaluating the segment
with feature value 0 in state `"junk"` yields the binned lookup sum. -/
theorem C1_witness :
    evaluateSeg (fun q : ℚ => q) [fun q : ℚ => q] exST1 (0 : ℚ) "junk" =
      some (((List.range 1).map (fun i =>
        storedProb exST1 "junk" i
          ((feature [fun q : ℚ => q] (0 : ℚ)).getD i 0))).sum) :=
  C1_evaluate_sums_binned_logprobs (fun q : ℚ => q) [fun q : ℚ => q] exST1
    (0 : ℚ) "junk" ((dictGet exST1.dists "junk").getD [])
    (by with_unfolding_all decide) (by with_unfolding_all decide)
    (by with_unfolding_all decide) (by with_unfolding_all decide)
    (by with_unfolding_all decide)

/-! ### Retraining appends instead of overwriting -/

set_option maxRecDepth 8000 in
/-- C8 counterexample: after `estimate(d1)` followed by `estimate(d2)`,
evaluating the segment with feature value 0 in state `"junk"` does *not*
equal the evaluation on a fresh estimator trained only on d2 (first
conjunct), and — because d1 and d2 share the same feature range — it is
*identical* to the d1-trained value (second conjunct): the d1 histograms
are still consulted after retraining, refuting both parts of the claim. -/
theorem C8_counterexample :
    evaluate (fun q : ℚ => Real.logb 2 (q : ℝ)) exSTBoth [0] "junk" ≠
      evaluate (fun q : ℚ => Real.logb 2 (q : ℝ)) exST2 [0] "junk" ∧
    evaluate (fun q : ℚ => Real.logb 2 (q : ℝ)) exSTBoth [0] "junk" =
      evaluate (fun q : ℚ => Real.logb 2 (q : ℝ)) exST1 [0] "junk" := by
  have h1 : evaluateQ exSTBoth [0] "junk" = some [2/65] := by
    with_unfolding_all decide
  have h2 : evaluateQ exST2 [0] "junk" = some [1/22] := by
    with_unfolding_all decide
  have h3 : evaluateQ exST1 [0] "junk" = some [2/65] := by
    with_unfolding_all decide
  constructor
  · rw [evaluate, evaluate, h1, h2]
    simp only [Option.map_some', List.map_cons, List.map_nil, List.sum_cons,
      List.sum_nil, add_zero, Option.some.injEq]
    have hlt : Real.logb 2 (((2 : ℚ)/65 : ℚ) : ℝ) <
        Real.logb 2 (((1 : ℚ)/22 : ℚ) : ℝ) := by
      apply Real.logb_lt_logb (by norm_num)
      · push_cast
        norm_num
      · push_cast
        norm_num
    exact fun hc => absurd (Option.some.inj hc) (ne_of_lt hlt)
  · rw [evaluate, evaluate, h1, h3]

/-- C8 as amended: a second `estimate` call *appends* `nfeat` new
histograms to each state's `_distributions` list instead of overwriting
(first conjunct: the list after retraining is the d1 list followed by the
d2 list), so the histogram consulted by `evaluate` for each feature
`i < nfeat` is still the one fitted from d1 (second conjunct), while the
bin vectors do reflect d2 (third and fourth conjuncts).  Retraining
therefore does not make `evaluate` agree with a fresh estimator trained on
d2. -/
theorem C8_amended_estimate_appends (cls1 cls2 : ℚ → ℚ → Int)
    (states : List String) (nfeat : ℕ) (d1 d2 : List (List ℚ)) (s : String)
    (si : ℕ) (i : ℕ) (hnd : states.Nodup) (hget : states.get? si = some s)
    (hi : i < nfeat) :
    dictGet (estimate cls2 (estimate cls1 (EDB.init states nfeat) nfeat d1)
        nfeat d2).dists s =
      some (((List.range nfeat).map
          (fun j => featProbs (relabel cls1 d1) si j (bEdges (relabel cls1 d1) j))) ++
        ((List.range nfeat).map
          (fun j => featProbs (relabel cls2 d2) si j (bEdges (relabel cls2 d2) j)))) ∧
    ((dictGet (estimate cls2 (estimate cls1 (EDB.init states nfeat) nfeat d1)
        nfeat d2).dists s).getD []).get? i =
      ((dictGet (estimate cls1 (EDB.init states nfeat) nfeat d1).dists s).getD
        []).get? i ∧
    (estimate cls2 (estimate cls1 (EDB.init states nfeat) nfeat d1) nfeat
        d2).binDeltas.getD i 0 =
      (estimate cls2 (EDB.init states nfeat) nfeat d2).binDeltas.getD i 0 ∧
    (estimate cls2 (estimate cls1 (EDB.init states nfeat) nfeat d1) nfeat
        d2).binMins.getD i 0 =
      (estimate cls2 (EDB.init states nfeat) nfeat d2).binMins.getD i 0 := by
  have hnd1 : (estimate cls1 (EDB.init states nfeat) nfeat d1).states.Nodup := by
    rw [estimate, estimateData_states]
    exact hnd
  have hget1 : (estimate cls1 (EDB.init states nfeat) nfeat d1).states.get? si =
      some s := by
    rw [estimate, estimateData_states]
    exact hget
  have h1 := estimate_dists cls1 states nfeat d1 s si hnd hget
  have hboth : dictGet (estimate cls2 (estimate cls1 (EDB.init states nfeat)
      nfeat d1) nfeat d2).dists s =
      some (((List.range nfeat).map
          (fun j => featProbs (relabel cls1 d1) si j (bEdges (relabel cls1 d1) j))) ++
        ((List.range nfeat).map
          (fun j => featProbs (relabel cls2 d2) si j (bEdges (relabel cls2 d2) j)))) := by
    rw [estimate, estimateData_dists _ (relabel cls2 d2) s si hnd1 hget1 nfeat, h1]
    rfl
  refine ⟨hboth, ?_, ?_, ?_⟩
  · rw [hboth, h1]
    simp only [Option.getD_some]
    rw [List.get?_eq_getElem?, List.get?_eq_getElem?, List.getElem?_append,
      if_pos (by simpa using hi)]
  · have hl1 : i < (EDB.init states nfeat).binDeltas.length := by
      simp [EDB.init]
      omega
    have hl2 : i < (estimate cls1 (EDB.init states nfeat) nfeat d1).binDeltas.length := by
      rw [estimate, estimateData_binDeltas_length]
      exact hl1
    rw [estimate, estimateData_binDeltas_getD _ _ nfeat i hi hl2,
      estimate, estimateData_binDeltas_getD _ _ nfeat i hi hl1]
  · have hl1 : i < (EDB.init states nfeat).binMins.length := by
      simp [EDB.init]
      omega
    have hl2 : i < (estimate cls1 (EDB.init states nfeat) nfeat d1).binMins.length := by
      rw [estimate, estimateData_binMins_length]
      exact hl1
    rw [estimate, estimateData_binMins_getD _ _ nfeat i hi hl2,
      estimate, estimateData_binMins_getD _ _ nfeat i hi hl1]

set_option maxRecDepth 8000 in
/-- C8 amended, witnessed on exD1/exD2: the histogram consulted for the
single feature after retraining is the exD1-fitted one. -/
theorem C8_amended_witness :
    ((dictGet exSTBoth.dists "junk").getD []).get? 0 =
      ((dictGet exST1.dists "junk").getD []).get? 0 :=
  (C8_amended_estimate_appends exCls0 exCls0 exStates 1 exD1 exD2 "junk" 0 0
    (by decide) (by decide) (by decide)).2.1

/-! ### Out-of-range discretization silently wraps -/

set_option maxRecDepth 8000 in
/-- C9: for the estimator fitted on exD9 (range `[0, 63]`, bin width 1), a
feature value `-1/2` below the fitted minimum yields bin index `-1`; no
error is raised and no clamping to the nearest edge bin occurs: Python's
negative indexing silently returns the *last* bin's (index 62) stored
probability, which differs from the nearest (first) bin's probability —
the code's own FIXME at `_discritize` acknowledges the defect. -/
theorem C9_out_of_range_reads_wrapped_bin :
    Int.floor ((((-1 : ℚ)/2) - exST9.binMins.getD 0 0) /
        exST9.binDeltas.getD 0 0) = -1 ∧
    ((-1 : ℚ)/2) < exST9.binMins.getD 0 0 ∧
    evaluateQ exST9 [-1/2] "junk" =
      some [(((dictGet exST9.dists "junk").getD []).getD 0 []).getD 62 0] ∧
    (((dictGet exST9.dists "junk").getD []).getD 0 []).getD 62 0 ≠
      (((dictGet exST9.dists "junk").getD []).getD 0 []).getD 0 0 := by
  with_unfolding_all decide

/-! ### The two-state classifier's swapped parameters -/

/-- C5: invoked as `classifier(wvd, traj, frameId, segmentId)` on the label
set `{traj 0: {frame 10 ↦ segment 20}}`, the classifier returns `-1` for
the labeled pair `(10, 20)` even though frame 10 appears in the label set:
the closure's parameters are declared `(wid, fid)` while every caller
passes the frame id first, so the `-1` guard tests the *segment* id
against the frame set.  The claim (and the constructor docstring, and the
`EDMultiState` classifier) require the answer 1 here. -/
theorem C5_classifier_swapped_sentinel :
    twoStateClassifier exTraj5 10 20 = -1 ∧
    (10, 20) ∈ trajLabelled exTraj5 ∧ (10 : ℚ) ∈ trajFrames exTraj5 := by
  with_unfolding_all decide

/-! ### The multi-state name discovery -/

theorem setAdd_nodup (l : List String) (x : String) (h : l.Nodup) :
    (setAdd l x).Nodup := by
  rw [setAdd]
  split
  · exact h
  · rename_i hx
    simpa [List.nodup_append, hx] using h

theorem setAdd_mem (l : List String) (x y : String) :
    y ∈ setAdd l x ↔ y ∈ l ∨ y = x := by
  rw [setAdd]
  split
  · rename_i hx
    constructor
    · exact Or.inl
    · rintro (h | rfl)
      · exact h
      · exact hx
  · simp

theorem stepSeg_fold_bound (labelled : List (ℚ × ℚ)) (fid : ℚ) :
    ∀ (segs : List (ℚ × ℚ)) (states : List String) (t : ℕ), states.Nodup →
      ((segs.foldl (stepSeg labelled fid) (states, t)).1.Nodup ∧
       t ≤ (segs.foldl (stepSeg labelled fid) (states, t)).2 ∧
       ∀ s ∈ (segs.foldl (stepSeg labelled fid) (states, t)).1,
         s ∈ states ∨
         (∃ u, t ≤ u ∧ u ≤ (segs.foldl (stepSeg labelled fid) (states, t)).2 ∧
           s = junkName u) ∨
         (∃ u, t ≤ u ∧ u < (segs.foldl (stepSeg labelled fid) (states, t)).2 ∧
           s = whiskerName u))
  | [], states, t, hnd => by
    refine ⟨hnd, le_refl t, fun s hs => Or.inl hs⟩
  | p :: rest, states, t, hnd => by
    rw [List.foldl_cons]
    by_cases hlab : (fid, p.1) ∈ labelled
    · have hstep : stepSeg labelled fid (states, t) p =
          (setAdd states (whiskerName t), t + 1) := by
        rw [stepSeg, if_pos hlab]
      rw [hstep]
      obtain ⟨ih1, ih2, ih3⟩ := stepSeg_fold_bound labelled fid rest
        (setAdd states (whiskerName t)) (t + 1) (setAdd_nodup states _ hnd)
      refine ⟨ih1, by omega, fun s hs => ?_⟩
      rcases ih3 s hs with hmem | ⟨u, hu1, hu2, rfl⟩ | ⟨u, hu1, hu2, rfl⟩
      · rcases (setAdd_mem states (whiskerName t) s).mp hmem with hmem2 | rfl
        · exact Or.inl hmem2
        · exact Or.inr (Or.inr ⟨t, le_refl t, by omega, rfl⟩)
      · exact Or.inr (Or.inl ⟨u, by omega, hu2, rfl⟩)
      · exact Or.inr (Or.inr ⟨u, by omega, hu2, rfl⟩)
    · have hstep : stepSeg labelled fid (states, t) p =
          (setAdd states (junkName t), t) := by
        rw [stepSeg, if_neg hlab]
      rw [hstep]
      obtain ⟨ih1, ih2, ih3⟩ := stepSeg_fold_bound labelled fid rest
        (setAdd states (junkName t)) t (setAdd_nodup states _ hnd)
      refine ⟨ih1, ih2, fun s hs => ?_⟩
      rcases ih3 s hs with hmem | ⟨u, hu1, hu2, rfl⟩ | ⟨u, hu1, hu2, rfl⟩
      · rcases (setAdd_mem states (junkName t) s).mp hmem with hmem2 | rfl
        · exact Or.inl hmem2
        · exact Or.inr (Or.inl ⟨t, le_refl t, ih2, rfl⟩)
      · exact Or.inr (Or.inl ⟨u, hu1, hu2, rfl⟩)
      · exact Or.inr (Or.inr ⟨u, hu1, hu2, rfl⟩)

theorem frameStep_fold_bound (labelled : List (ℚ × ℚ)) :
    ∀ (frames : List (ℚ × List (ℚ × ℚ))) (states : List String) (n : ℕ),
      states.Nodup →
      ((frames.foldl (frameStep labelled) (states, n)).1.Nodup ∧
       n ≤ (frames.foldl (frameStep labelled) (states, n)).2 ∧
       ∀ s ∈ (frames.foldl (frameStep labelled) (states, n)).1,
         s ∈ states ∨
         (∃ u, u ≤ (frames.foldl (frameStep labelled) (states, n)).2 ∧
           s = junkName u) ∨
         (∃ u, u < (frames.foldl (frameStep labelled) (states, n)).2 ∧
           s = whiskerName u))
  | [], states, n, hnd => ⟨hnd, le_refl n, fun s hs => Or.inl hs⟩
  | f :: rest, states, n, hnd => by
    rw [List.foldl_cons]
    obtain ⟨in1, in2, in3⟩ := stepSeg_fold_bound labelled f.1 (wcmpSort f.2)
      states 0 hnd
    have hstep : frameStep labelled (states, n) f =
        (((wcmpSort f.2).foldl (stepSeg labelled f.1) (states, 0)).1,
          max n ((wcmpSort f.2).foldl (stepSeg labelled f.1) (states, 0)).2) :=
      rfl
    rw [hstep]
    obtain ⟨ih1, ih2, ih3⟩ := frameStep_fold_bound labelled rest _ _ in1
    refine ⟨ih1, le_trans (Nat.le_max_left _ _) ih2, fun s hs => ?_⟩
    rcases ih3 s hs with hmem | ⟨u, hu, rfl⟩ | ⟨u, hu, rfl⟩
    · rcases in3 s hmem with hmem2 | ⟨u, _, hu2, rfl⟩ | ⟨u, _, hu2, rfl⟩
      · exact Or.inl hmem2
      · refine Or.inr (Or.inl ⟨u, ?_, rfl⟩)
        have := Nat.le_max_right n ((wcmpSort f.2).foldl (stepSeg labelled f.1)
          (states, 0)).2
        omega
      · refine Or.inr (Or.inr ⟨u, ?_, rfl⟩)
        have := Nat.le_max_right n ((wcmpSort f.2).foldl (stepSeg labelled f.1)
          (states, 0)).2
        omega
    · exact Or.inr (Or.inl ⟨u, hu, rfl⟩)
    · exact Or.inr (Or.inr ⟨u, hu, rfl⟩)

/-- C7 counterexample: a training set with one frame containing a single
unlabeled segment discovers the state set `{"junk0"}` of size 1 and
`nsteps = 0`, so the state-set size is not `2 * nsteps = 0`. -/
theorem C7_counterexample :
    (discoverStates [] exWvd7).1.length ≠ 2 * (discoverStates [] exWvd7).2 := by
  with_unfolding_all decide

/-- C7 as amended: the ordinal classifier's discovered state-name set has
size at most `2 * nsteps + 1`: each whisker name carries a counter value
`< nsteps` and each junk name a counter value `≤ nsteps` (a junk segment
after the last whisker of the deepest frame produces `junk nsteps`), and
only realized names are added, so size `2 * nsteps` is not guaranteed. -/
theorem C7_amended_state_count_bound (traj wvd : List (ℚ × List (ℚ × ℚ))) :
    (discoverStates traj wvd).1.length ≤ 2 * (discoverStates traj wvd).2 + 1 := by
  obtain ⟨hnd, _, hmem⟩ :=
    frameStep_fold_bound (trajLabelled traj) wvd [] 0 List.nodup_nil
  rw [discoverStates]
  have hsub : (wvd.foldl (frameStep (trajLabelled traj)) ([], 0)).1 ⊆
      (List.range ((wvd.foldl (frameStep (trajLabelled traj)) ([], 0)).2 + 1)).map
        junkName ++
      (List.range (wvd.foldl (frameStep (trajLabelled traj)) ([], 0)).2).map
        whiskerName := by
    intro s hs
    rcases hmem s hs with h | ⟨u, hu, rfl⟩ | ⟨u, hu, rfl⟩
    · exact absurd h (List.not_mem_nil s)
    · exact List.mem_append_left _
        (List.mem_map.mpr ⟨u, List.mem_range.mpr (by omega), rfl⟩)
    · exact List.mem_append_right _
        (List.mem_map.mpr ⟨u, List.mem_range.mpr hu, rfl⟩)
  have hlen := (List.subperm_of_subset hnd hsub).length_le
  rw [List.length_append, List.length_map, List.length_map, List.length_range,
    List.length_range] at hlen
  omega

/-! ### The transition matrix accessor -/

/-- C10: `transition_matrix()` returns an `n × n` matrix (`n` the number of
model states) whose `(source, destination)` entry is the stored log2
transition probability when the pair is present in the transition map and
`0.0` otherwise; a missing source or destination never raises
(`try/except KeyError: pass` keeps the zero initialization). -/
theorem C10_transition_matrix_total (states : List String)
    (trans : List (String × List (String × ℚ))) (isrc idst : ℕ)
    (src dst : String) (hs : states.get? isrc = some src)
    (hd : states.get? idst = some dst) :
    (transition_matrix states trans).length = states.length ∧
    (∀ row ∈ transition_matrix states trans, row.length = states.length) ∧
    ((transition_matrix states trans).getD isrc []).getD idst 0 =
      ((dictGet trans src).bind (fun inner => dictGet inner dst)).getD 0 := by
  refine ⟨by rw [transition_matrix, List.length_map], ?_, ?_⟩
  · intro row hrow
    rcases List.mem_map.mp hrow with ⟨src0, _, hsrc⟩
    rw [← hsrc, List.length_map]
  · rw [List.get?_eq_getElem?] at hs hd
    have houter : (transition_matrix states trans).getD isrc [] =
        states.map (fun dst =>
          match dictGet trans src with
          | none => 0
          | some inner =>
            match dictGet inner dst with
            | none => 0
            | some p => p) := by
      rw [transition_matrix, List.getD_eq_getElem?_getD, List.getElem?_map, hs]
      rfl
    rw [houter, List.getD_eq_getElem?_getD, List.getElem?_map, hd]
    simp only [Option.map_some', Option.getD_some]
    cases h1 : dictGet trans src with
    | none => simp
    | some inner =>
      cases h2 : dictGet inner dst with
      | none => simp [h2]
      | some p => simp [h2]

/-- C10, witnessed on a two-state model with a single stored transition:
the present entry reads back the stored probability and the projection
equals the optional-lookup composition. -/
theorem C10_witness :
    ((transition_matrix ["a", "b"] [("a", [("a", 5)])]).getD 0 []).getD 0 0 =
      ((dictGet [("a", [("a", (5 : ℚ))])] "a").bind
        (fun inner => dictGet inner "a")).getD 0 :=
  (C10_transition_matrix_total ["a", "b"] [("a", [("a", 5)])] 0 0 "a" "a"
    (by decide) (by decide)).2.2
